import Mathlib

/-!
Verification development for the trace-profiler engine in
`scripts/parse_trace.py` (instrument-profiler repository).

The embedding models:
* the XML element trees consumed by `TimeProfileParser` (elements with a
  tag, attributes and children, mirroring `xml.etree.ElementTree`);
* the reference index (`_build_id_cache`) and one-hop reference
  resolution (`_resolve_ref`);
* sample reconstruction (`_parse_row`), including weight parsing with
  its `1.0` fallback and the silent dropping of unnamed frames;
* the aggregations of `ProfileAnalyzer` (`get_hot_frames`,
  `get_self_time_frames`, `get_app_frames`, `get_swiftui_frames`) and
  the collapsed-stack generator (`generate_collapsed_stacks`).

Python `float` weights are modelled as rationals (every value the
parser produces from a decimal literal is rational, and no claim under
study depends on binary floating-point rounding).  Python's stable
`sorted(..., reverse=True)` is modelled by a stable descending
insertion sort, which computes the same list.  Python `dict`s (which
iterate in insertion order) are modelled as association lists where an
update keeps the key's position and a fresh key is appended at the end.
-/

/-- Characters stripped by Python's `str.strip()` (ASCII whitespace;
the export format contains no exotic Unicode whitespace). -/
def isSpaceCh (c : Char) : Bool :=
  c = ' ' || c = '\t' || c = '\n' || c = '\r' || c = '\x0b' || c = '\x0c'

/-- `leadsList n h` is true when list `n` is an initial segment of `h`
(model of Python `str.startswith`). -/
def leadsList : List Char → List Char → Bool
  | [], _ => true
  | _ :: _, [] => false
  | a :: as, b :: bs => a = b && leadsList as bs

/-- `withinList n h` is true when `n` occurs contiguously within `h`
(model of Python's substring test `n in h`). -/
def withinList (needle : List Char) : List Char → Bool
  | [] => leadsList needle []
  | b :: bs => leadsList needle (b :: bs) || withinList needle bs

/-- Model of Python `str.startswith`. -/
def strStarts (s p : String) : Bool := leadsList p.data s.data

/-- Model of Python's case-sensitive substring test `needle in hay`. -/
def withinStr (needle hay : String) : Bool := withinList needle.data hay.data

/-- Model of Python `needle.lower() in hay.lower()` (case-insensitive
substring test). -/
def substrCI (needle hay : String) : Bool :=
  withinList (needle.data.map Char.toLower) (hay.data.map Char.toLower)

/-- Association-list lookup (model of Python `dict.get` returning
`None` when absent). -/
def alistGet {α : Type} : List (String × α) → String → Option α
  | [], _ => none
  | (k, v) :: rest, key => if k = key then some v else alistGet rest key

/-- Association-list update: an existing key keeps its position, a new
key is appended (model of Python `dict.__setitem__` insertion-order
semantics). -/
def alistPut {α : Type} : List (String × α) → String → α → List (String × α)
  | [], k, v => [(k, v)]
  | (k0, v0) :: rest, k, v =>
      if k0 = k then (k0, v) :: rest else (k0, v0) :: alistPut rest k v

/-- Python truthiness of an `Optional[str]`: `None` and `""` are falsy. -/
def optTruthy : Option String → Bool
  | none => false
  | some s => s ≠ ""

/-- XML element: tag, attributes, children (model of
`xml.etree.ElementTree.Element`). -/
inductive Elem : Type where
  | mk (tag : String) (attrs : List (String × String)) (children : List Elem)

/-- The element's tag. -/
def Elem.tag : Elem → String
  | .mk t _ _ => t

/-- The element's attribute list. -/
def Elem.attrs : Elem → List (String × String)
  | .mk _ a _ => a

/-- The element's child list. -/
def Elem.children : Elem → List Elem
  | .mk _ _ c => c

/-- Model of `elem.get(key)`. -/
def Elem.getAttr (e : Elem) (k : String) : Option String := alistGet e.attrs k

/-- Model of `elem.get(key, dflt)`. -/
def Elem.getD (e : Elem) (k d : String) : String := (e.getAttr k).getD d

mutual
/-- All elements of the subtree rooted at `e`, in document (preorder)
order, the root included (model of `elem.iter()`). -/
def Elem.allElems : Elem → List Elem
  | .mk t a cs => .mk t a cs :: allElemsList cs
/-- All elements of the subtrees rooted at the given list, in document
order. -/
def allElemsList : List Elem → List Elem
  | [] => []
  | e :: es => e.allElems ++ allElemsList es
end

/-- Model of `elem.iter(tag)`: the tagged elements of the subtree in
document order, the root included when it matches. -/
def Elem.iterTag (e : Elem) (t : String) : List Elem :=
  e.allElems.filter (fun c => c.tag == t)

/-- Model of `elem.find(".//tag")`: the first strict descendant with
the given tag, in document order, or nothing. -/
def Elem.findDeep (e : Elem) (t : String) : Option Elem :=
  (allElemsList e.children).find? (fun c => c.tag == t)

/-- The reference index.  Model of `TimeProfileParser._build_id_cache`:
every element of the tree that carries a truthy `id` attribute is
recorded, later elements overwriting earlier ones with the same id. -/
def buildIdCache (root : Elem) : List (String × Elem) :=
  root.allElems.foldl
    (fun cache e =>
      match e.getAttr "id" with
      | some i => if i = "" then cache else alistPut cache i e
      | none => cache)
    []

/-- Model of `TimeProfileParser._resolve_ref`: when the element carries
a truthy `ref` attribute naming a cached identifier, the cached element
is substituted; otherwise the element itself is returned. -/
def resolveRef (cache : List (String × Elem)) (e : Elem) : Elem :=
  match e.getAttr "ref" with
  | none => e
  | some r =>
      if r = "" then e
      else
        match alistGet cache r with
        | some t => t
        | none => e

/-- A resolved stack frame (the `Frame` dataclass). -/
structure Frame : Type where
  name : String
  addr : String
  binary : Option String
deriving DecidableEq, Repr

/-- A reconstructed profile sample (the `Sample` dataclass).  The
weight is a rational, standing for the Python float. -/
structure Sample : Type where
  time : String
  thread : String
  process : String
  weight_ms : ℚ
  backtrace : List Frame
deriving DecidableEq, Repr

/-- Python truthiness of a frame's `binary` field. -/
def binTruthy : Option String → Bool
  | none => false
  | some b => b ≠ ""

/-- Digit-string value (helper for the model of Python `float`). -/
def digitsVal (ds : List Char) : ℕ :=
  ds.foldl (fun a c => a * 10 + (c.toNat - ('0').toNat)) 0

/-- Parse a non-empty all-digit string (helper for the model of
Python `float`). -/
def parseUnsignedDigits (ds : List Char) : Option ℕ :=
  if ds ≠ [] && ds.all Char.isDigit then some (digitsVal ds) else none

/-- Split a character list at the first occurrence of `c`, when any. -/
def splitAtCh (c : Char) : List Char → Option (List Char × List Char)
  | [] => none
  | x :: xs =>
      if x = c then some ([], xs)
      else
        match splitAtCh c xs with
        | some (a, b) => some (x :: a, b)
        | none => none

/-- Split at the first exponent marker `e`/`E`, when any. -/
def splitAtExpMark : List Char → Option (List Char × List Char)
  | [] => none
  | x :: xs =>
      if x = 'e' || x = 'E' then some ([], xs)
      else
        match splitAtExpMark xs with
        | some (a, b) => some (x :: a, b)
        | none => none

/-- Mantissa of a Python float literal: digits with an optional single
decimal point, at least one digit overall (`"12"`, `"12."`, `".5"`). -/
def parseMantissa (s : List Char) : Option ℚ :=
  match splitAtCh '.' s with
  | none => (parseUnsignedDigits s).map (fun n => (n : ℚ))
  | some (ip, fp) =>
      if ip.all Char.isDigit && fp.all Char.isDigit && (ip ≠ [] || fp ≠ []) then
        some ((digitsVal ip : ℚ) + (digitsVal fp : ℚ) / ((10 ^ fp.length : ℕ) : ℚ))
      else none

/-- Optionally signed integer (the exponent part of a float literal). -/
def parseSignedInt (s : List Char) : Option ℤ :=
  match s with
  | '+' :: rest => (parseUnsignedDigits rest).map (fun n => (n : ℤ))
  | '-' :: rest => (parseUnsignedDigits rest).map (fun n => -(n : ℤ))
  | _ => (parseUnsignedDigits s).map (fun n => (n : ℤ))

/-- Scale a rational by a signed power of ten (the exponent part of a
float literal). -/
def ratTimesPow10 (q : ℚ) (e : ℤ) : ℚ :=
  if 0 ≤ e then q * ((10 ^ e.toNat : ℕ) : ℚ)
  else q / ((10 ^ (-e).toNat : ℕ) : ℚ)

/-- Unsigned part of the model of Python `float(str)`. -/
def parsePyFloatBody (body : List Char) : Option ℚ :=
  match splitAtExpMark body with
  | none => parseMantissa body
  | some (m, e) =>
      match parseMantissa m, parseSignedInt e with
      | some mv, some ev => some (ratTimesPow10 mv ev)
      | _, _ => none

/-- Model of Python `float(str)` for finite decimal literals
(`[sign] digits [. digits] [e [sign] digits]`).  The non-finite
literals `inf`/`nan` and digit-group underscores are outside the
rational model; the trace export's weight strings are plain decimals. -/
def parsePyFloat (s : String) : Option ℚ :=
  match s.data with
  | '+' :: body => parsePyFloatBody body
  | '-' :: body => (parsePyFloatBody body).map Neg.neg
  | body => parsePyFloatBody body

/-- Model of `fmt.replace("ms", "")`: remove every (non-overlapping,
left-to-right) occurrence of `ms`. -/
def removeMs : List Char → List Char
  | 'm' :: 's' :: rest => removeMs rest
  | c :: rest => c :: removeMs rest
  | [] => []

/-- Model of `fmt.replace(",", "")`. -/
def removeCommas : List Char → List Char
  | ',' :: rest => removeCommas rest
  | c :: rest => c :: removeCommas rest
  | [] => []

/-- Model of Python `str.strip()`. -/
def stripStr (s : List Char) : List Char :=
  ((s.dropWhile isSpaceCh).reverse.dropWhile isSpaceCh).reverse

/-- The cleaned weight string:
`fmt.replace("ms", "").replace(",", "").strip()`. -/
def cleanWeight (fmt : String) : String :=
  String.mk (stripStr (removeCommas (removeMs fmt.data)))

/-- The weight extracted from a weight element's `fmt` attribute:
`float(fmt.replace("ms", "").replace(",", "").strip())`, falling back
to `1.0` when the conversion raises `ValueError`. -/
def parseWeightFmt (fmt : String) : ℚ :=
  match parsePyFloat (cleanWeight fmt) with
  | some v => v
  | none => 1

/-- The weight of a row (`_parse_row`, weight section): the first
`weight` descendant, resolved, its `fmt` attribute (default "1 ms")
parsed; `1.0` when there is no weight element or the parse fails. -/
def rowWeight (cache : List (String × Elem)) (row : Elem) : ℚ :=
  match row.findDeep "weight" with
  | none => 1
  | some e => parseWeightFmt ((resolveRef cache e).getD "fmt" "1 ms")

/-- A scalar field of a row (`_parse_row`, time/thread/process
sections): the first descendant with the tag, resolved, its `fmt`
attribute; `""` when absent. -/
def fieldFmt (cache : List (String × Elem)) (row : Elem) (t : String) : String :=
  match row.findDeep t with
  | none => ""
  | some e => (resolveRef cache e).getD "fmt" ""

/-- The binary of a frame element (`_parse_row`, backtrace section):
the first direct child tagged `binary`; its `ref`, when truthy and
cached, yields the cached element's `name`, otherwise the child's own
`name`; `None` when there is no such child. -/
def frameBinary (cache : List (String × Elem)) (fe : Elem) : Option String :=
  match fe.children.find? (fun c => c.tag == "binary") with
  | none => none
  | some child =>
      match child.getAttr "ref" with
      | some r =>
          if r = "" then some (child.getD "name" "")
          else
            match alistGet cache r with
            | some t => some (t.getD "name" "")
            | none => some (child.getD "name" "")
      | none => some (child.getD "name" "")

/-- One frame element turned into a `Frame` (`_parse_row`, backtrace
loop body): the element is resolved, `name` and `addr` read from
attributes, the binary from the nested child; a frame whose resolved
name is empty is dropped (`if name:`). -/
def mkFrame (cache : List (String × Elem)) (fe : Elem) : Option Frame :=
  if (resolveRef cache fe).getD "name" "" = "" then none
  else some ⟨(resolveRef cache fe).getD "name" "",
             (resolveRef cache fe).getD "addr" "",
             frameBinary cache (resolveRef cache fe)⟩

/-- The frame elements of a row: the first `backtrace` descendant,
resolved, iterated for `frame` tags in document order. -/
def btFrameElems (cache : List (String × Elem)) (row : Elem) : List Elem :=
  match row.findDeep "backtrace" with
  | none => []
  | some bt => (resolveRef cache bt).iterTag "frame"

/-- Append an optional element at the end of the accumulator (the
`backtrace.append(...)` step guarded by `if name:`). -/
def appendOpt {β : Type} (acc : List β) (ob : Option β) : List β :=
  match ob with
  | some b => acc ++ [b]
  | none => acc

/-- The reconstructed backtrace of a row (`_parse_row`, backtrace
loop): frames appended in traversal order, unnamed frames dropped. -/
def rowBacktrace (cache : List (String × Elem)) (row : Elem) : List Frame :=
  (btFrameElems cache row).foldl (fun acc fe => appendOpt acc (mkFrame cache fe)) []

/-- Model of `TimeProfileParser._parse_row`: a row yields a `Sample`
exactly when its reconstructed backtrace is non-empty. -/
def parseRow (cache : List (String × Elem)) (row : Elem) : Option Sample :=
  let bt := rowBacktrace cache row
  if bt = [] then none
  else
    some ⟨fieldFmt cache row "sample-time", fieldFmt cache row "thread",
          fieldFmt cache row "process", rowWeight cache row, bt⟩

/-- Model of `TimeProfileParser.parse`: build the id cache, then parse
every `row` element in document order, keeping the rows that yield a
sample. -/
def parseTimeProfile (root : Elem) : List Sample :=
  (root.iterTag "row").filterMap (parseRow (buildIdCache root))

/-- One accumulation entry: a frame name with its occurrence count and
accumulated weight.  The `frame_counts` and `frame_weights` dicts of
the analyzer always gain and update keys together, so they are fused
into one insertion-ordered association list. -/
structure AggEntry : Type where
  name : String
  count : ℕ
  weight : ℚ
deriving DecidableEq, Repr

/-- `frame_counts[name] += 1; frame_weights[name] += w` on the fused
accumulation list: an existing entry is updated in place, a new name is
appended (Python dict insertion-order semantics). -/
def bumpEntry : List AggEntry → String → ℚ → List AggEntry
  | [], nm, w => [⟨nm, 1, w⟩]
  | e :: rest, nm, w =>
      if e.name = nm then ⟨e.name, e.count + 1, e.weight + w⟩ :: rest
      else e :: bumpEntry rest nm w

/-- Lookup of an accumulated count (0 when the name was never seen,
matching `defaultdict(int)`). -/
def entryCount : List AggEntry → String → ℕ
  | [], _ => 0
  | e :: rest, nm => if e.name = nm then e.count else entryCount rest nm

/-- Lookup of an accumulated weight (0.0 when the name was never seen,
matching `defaultdict(float)`). -/
def entryWeight : List AggEntry → String → ℚ
  | [], _ => 0
  | e :: rest, nm => if e.name = nm then e.weight else entryWeight rest nm

/-- Membership in the per-sample seen-set (Python `in` on a `set`). -/
def seenHas : List String → String → Bool
  | [], _ => false
  | s :: rest, nm => if s = nm then true else seenHas rest nm

/-- Stable insertion of an entry into a weight-descending list: the
inserted element passes every strictly heavier element and stops in
front of the first element that is not heavier, so an earlier-arriving
entry stays ahead of later equal-weight ones. -/
def insertByWeight (x : AggEntry) : List AggEntry → List AggEntry
  | [] => [x]
  | y :: ys => if x.weight < y.weight then y :: insertByWeight x ys else x :: y :: ys

/-- Model of `sorted(frame_weights.items(), key=lambda x: x[1],
reverse=True)`: the unique stable weight-descending sort, computed by
stable insertion. -/
def sortByWeightDesc : List AggEntry → List AggEntry
  | [] => []
  | x :: xs => insertByWeight x (sortByWeightDesc xs)

/-- The fixed system-module prefixes of
`ProfileAnalyzer._is_system_frame`. -/
def systemLibs : List String :=
  ["dyld", "libsystem", "libobjc", "libdispatch",
   "CoreFoundation", "Foundation", "UIKit", "QuartzCore",
   "_CF", "_NS", "objc_"]

/-- Model of `ProfileAnalyzer._is_system_frame`. -/
def isSystemFrame (f : Frame) : Bool :=
  systemLibs.any (fun p =>
    strStarts f.name p ||
    (match f.binary with
     | some b => b ≠ "" && strStarts b p
     | none => false))

/-- One iteration of the inner loop of `get_hot_frames`, over the state
(accumulation list, `frame_binary` map, per-sample seen-set). -/
def hotFrameStep (fb : Option String) (ex : Bool) (w : ℚ)
    (st : List AggEntry × List (String × String) × List String) (f : Frame) :
    List AggEntry × List (String × String) × List String :=
  if strStarts f.name "0x" then st
  else if optTruthy fb && !(f.binary == fb) then st
  else if ex && isSystemFrame f then st
  else if seenHas st.2.2 f.name then st
  else
    (bumpEntry st.1 f.name w,
     (match f.binary with
      | some b => if b ≠ "" then alistPut st.2.1 f.name b else st.2.1
      | none => st.2.1),
     f.name :: st.2.2)

/-- One iteration of the outer loop of `get_hot_frames`: process a
sample's backtrace with a fresh seen-set. -/
def hotProcessSample (fb : Option String) (ex : Bool)
    (st : List AggEntry × List (String × String)) (s : Sample) :
    List AggEntry × List (String × String) :=
  let r := s.backtrace.foldl (hotFrameStep fb ex s.weight_ms) (st.1, st.2, [])
  (r.1, r.2.1)

/-- The accumulation phase of `get_hot_frames` over all samples. -/
def hotAggregate (fb : Option String) (ex : Bool) (samples : List Sample) :
    List AggEntry × List (String × String) :=
  samples.foldl (hotProcessSample fb ex) ([], [])

/-- Model of `ProfileAnalyzer.get_hot_frames`: inclusive ("total
time") aggregation, sorted by weight descending, truncated to `topN`,
each entry paired with its count and last-seen binary. -/
def getHotFrames (samples : List Sample) (topN : ℕ)
    (fb : Option String) (ex : Bool) : List (String × ℕ × ℚ × Option String) :=
  let st := hotAggregate fb ex samples
  ((sortByWeightDesc st.1).take topN).map
    (fun e => (e.name, e.count, e.weight, alistGet st.2 e.name))

/-- The leaf-finding loop of `get_self_time_frames`: the first frame
whose name does not start with `0x`, skipping (via `continue`) frames
that fail the optional binary filter. -/
def findLeafFrame (fb : Option String) : List Frame → Option Frame
  | [] => none
  | f :: fs =>
      if strStarts f.name "0x" then findLeafFrame fb fs
      else if optTruthy fb && !(f.binary == fb) then findLeafFrame fb fs
      else some f

/-- One iteration of the outer loop of `get_self_time_frames`: the
sample's qualifying leaf, when any, receives one count and the full
weight. -/
def selfProcessSample (fb : Option String)
    (st : List AggEntry × List (String × String)) (s : Sample) :
    List AggEntry × List (String × String) :=
  match findLeafFrame fb s.backtrace with
  | none => st
  | some f =>
      (bumpEntry st.1 f.name s.weight_ms,
       match f.binary with
       | some b => if b ≠ "" then alistPut st.2 f.name b else st.2
       | none => st.2)

/-- The accumulation phase of `get_self_time_frames`. -/
def selfAggregate (fb : Option String) (samples : List Sample) :
    List AggEntry × List (String × String) :=
  samples.foldl (selfProcessSample fb) ([], [])

/-- Model of `ProfileAnalyzer.get_self_time_frames`: leaf-only ("self
time") aggregation, sorted by weight descending, truncated to `topN`. -/
def getSelfTimeFrames (samples : List Sample) (topN : ℕ)
    (fb : Option String) : List (String × ℕ × ℚ × Option String) :=
  let st := selfAggregate fb samples
  ((sortByWeightDesc st.1).take topN).map
    (fun e => (e.name, e.count, e.weight, alistGet st.2 e.name))

/-- One iteration of the inner loop of `get_app_frames`: like the hot
loop but requiring a truthy binary that case-insensitively contains the
app-binary substring, and with no `frame_binary` map. -/
def appFrameStep (appBinary : String) (w : ℚ)
    (st : List AggEntry × List String) (f : Frame) : List AggEntry × List String :=
  if strStarts f.name "0x" then st
  else if !(binTruthy f.binary && substrCI appBinary (f.binary.getD "")) then st
  else if seenHas st.2 f.name then st
  else (bumpEntry st.1 f.name w, f.name :: st.2)

/-- The accumulation phase of `get_app_frames`. -/
def appAggregate (appBinary : String) (samples : List Sample) : List AggEntry :=
  samples.foldl
    (fun acc s => (s.backtrace.foldl (appFrameStep appBinary s.weight_ms) (acc, [])).1)
    []

/-- Model of `ProfileAnalyzer.get_app_frames`: scoped (app-specific)
inclusive aggregation. -/
def getAppFrames (samples : List Sample) (appBinary : String) (topN : ℕ) :
    List (String × ℕ × ℚ) :=
  ((sortByWeightDesc (appAggregate appBinary samples)).take topN).map
    (fun e => (e.name, e.count, e.weight))

/-- The fixed keyword list of `get_swiftui_frames`. -/
def swiftuiKeywords : List String :=
  ["SwiftUI", "AG::", "View", "Layout", "DisplayList", "Attribute"]

/-- Model of `ProfileAnalyzer.get_swiftui_frames`: post-filter the
top-100 inclusive results by keyword (case-sensitive substring in the
name) or a truthy binary containing `SwiftUI`, capped at `topN`. -/
def getSwiftuiFrames (samples : List Sample) (topN : ℕ) : List (String × ℕ × ℚ) :=
  (((getHotFrames samples 100 none false).filter
      (fun t =>
        swiftuiKeywords.any (fun kw => withinStr kw t.1) ||
        (match t.2.2.2 with
         | some b => b ≠ "" && withinStr "SwiftUI" b
         | none => false))).take topN).map
    (fun t => (t.1, t.2.1, t.2.2.1))

/-- Name sanitization of `generate_collapsed_stacks`:
`name.replace(";", ":").replace(" ", "_")`. -/
def sanitizeName (s : String) : String :=
  String.mk (s.data.map (fun c =>
    if c = ';' then ':' else if c = ' ' then '_' else c))

/-- The skip condition of the collapsed-stack binary filter:
`filter_binary and frame.binary and filter_binary.lower() not in
frame.binary.lower()` — a frame with no truthy binary is never
skipped by the filter. -/
def cstackSkip (fb : Option String) (f : Frame) : Bool :=
  match fb, f.binary with
  | some fbs, some b => fbs ≠ "" && b ≠ "" && !substrCI fbs b
  | _, _ => false

/-- The per-sample stack loop of `generate_collapsed_stacks`, applied
to the reversed (root-first) backtrace: raw-address frames and
filtered frames are skipped, surviving names sanitized, in order. -/
def collapseFrames (fb : Option String) : List Frame → List String
  | [] => []
  | f :: fs =>
      if strStarts f.name "0x" then collapseFrames fb fs
      else if cstackSkip fb f then collapseFrames fb fs
      else sanitizeName f.name :: collapseFrames fb fs

/-- Python `int(float)`: truncation toward zero, on the rational
model. -/
def truncInt (q : ℚ) : ℤ := if q < 0 then -((-q).num / (-q).den) else q.num / q.den

/-- The line emitted for one sample by `generate_collapsed_stacks`
(`f"{';'.join(stack)} {int(weight)}"`), or nothing when no frame
survives. -/
def sampleLine (fb : Option String) (s : Sample) : Option String :=
  let stack := collapseFrames fb s.backtrace.reverse
  if stack = [] then none
  else some (String.intercalate ";" stack ++ " " ++ toString (truncInt s.weight_ms))

/-- Model of `ProfileAnalyzer.generate_collapsed_stacks`: the emitted
lines joined by newlines, samples with no surviving frame omitted. -/
def generateCollapsedStacks (fb : Option String) (samples : List Sample) : String :=
  String.intercalate "\n" (samples.filterMap (sampleLine fb))

/-- Modelled from the spec (§4.4, claim C7): the collapsed-stack line
the Stack Normalizer must emit for one unfiltered sample — the
surviving (non-raw-address) frame names of the reversed backtrace,
sanitized, semicolon-joined, then a space and the truncated weight;
nothing when no frame survives. -/
def specCollapsedLine (s : Sample) : Option String :=
  let names := (s.backtrace.reverse.filter
      (fun f => !strStarts f.name "0x")).map (fun f => sanitizeName f.name)
  if names = [] then none
  else some (String.intercalate ";" names ++ " " ++ toString (truncInt s.weight_ms))

/-- Whether an optional binary case-insensitively contains the filter
string (the property claim C9 asserts of every emitted frame). -/
def optBinMatches (fbs : String) : Option String → Bool
  | some b => substrCI fbs b
  | none => false

/-- The qualification test of the leaf-finding loop: the frame's name
does not start with the raw-address marker and the frame passes the
optional binary filter. -/
def qualSelf (fb : Option String) (f : Frame) : Bool :=
  !strStarts f.name "0x" && !(optTruthy fb && !(f.binary == fb))

/-- Concrete sample for the C1 witness: the name `dup` occurs twice. -/
def c1sample : Sample :=
  ⟨"", "", "", 5, [⟨"dup", "", none⟩, ⟨"other", "", none⟩, ⟨"dup", "", none⟩]⟩

/-- Concrete sample for the C2 witness: a raw-address frame ahead of a
named leaf. -/
def c2sample : Sample :=
  ⟨"", "", "", 3, [⟨"0xabc", "", none⟩, ⟨"leafF", "", some "BinA"⟩, ⟨"rootF", "", none⟩]⟩

/-- Concrete document for the C3 witness. -/
def c3target : Elem := .mk "node" [("id", "n1"), ("fmt", "42"), ("name", "sym")] []

/-- A node referencing `n1` (C3 witness). -/
def c3refNode : Elem := .mk "node" [("ref", "n1")] []

/-- Root holding `c3target` and `c3refNode` (C3 witness). -/
def c3root : Elem := .mk "root" [] [c3target, c3refNode]

/-- Base of the two-hop reference chain (C10 witness). -/
def c10base : Elem := .mk "n" [("id", "a"), ("fmt", "base")] []

/-- Middle of the chain: has an id and itself references `a` (C10
witness). -/
def c10mid : Elem := .mk "n" [("id", "b"), ("ref", "a")] []

/-- Head of the chain, referencing `b` (C10 witness). -/
def c10chainNode : Elem := .mk "n" [("ref", "b")] []

/-- Root holding the chain (C10 witness). -/
def c10root : Elem := .mk "root" [] [c10base, c10mid, c10chainNode]

/-- Concrete row for the C4 witness: unparseable weight, one named
frame. -/
def c4row : Elem :=
  .mk "row" [] [.mk "weight" [("fmt", "bogus")] [],
                .mk "backtrace" [] [.mk "frame" [("name", "g")] []]]

/-- Concrete row for the C5 witness: one named frame, one unnamed
frame. -/
def c5row : Elem :=
  .mk "row" [] [.mk "backtrace" [] [.mk "frame" [("name", "f1")] [],
                                    .mk "frame" [("addr", "0x9")] []]]

/-- Concrete frame element with a raw-address name (C6 witness). -/
def c6frameElem : Elem := .mk "frame" [("name", "0xdead"), ("addr", "0xdead")] []

/-- Concrete trace for the C6 witness. -/
def c6samples : List Sample :=
  [⟨"", "", "", 1, [⟨"0xdead", "", none⟩, ⟨"named", "", none⟩]⟩]

/-- Concrete sample for the C9 counterexample: its only frame has no
recorded binary. -/
def c9sample : Sample := ⟨"", "", "", 1, [⟨"noBin", "", none⟩]⟩

/-- Concrete sample for the C9 witness: the frame's binary
case-insensitively contains the filter. -/
def c9witSample : Sample := ⟨"", "", "", 1, [⟨"appFn", "", some "MyApp"⟩]⟩

/-! ### Helper lemmas -/

theorem entryCount_bumpEntry_self (st : List AggEntry) (nm : String) (w : ℚ) :
    entryCount (bumpEntry st nm w) nm = entryCount st nm + 1 := by
  induction st with
  | nil => simp [bumpEntry, entryCount]
  | cons e rest ih =>
    by_cases h : e.name = nm
    · simp [bumpEntry, entryCount, h]
    · simp [bumpEntry, entryCount, h, ih]

theorem entryWeight_bumpEntry_self (st : List AggEntry) (nm : String) (w : ℚ) :
    entryWeight (bumpEntry st nm w) nm = entryWeight st nm + w := by
  induction st with
  | nil => simp [bumpEntry, entryWeight]
  | cons e rest ih =>
    by_cases h : e.name = nm
    · simp [bumpEntry, entryWeight, h]
    · simp [bumpEntry, entryWeight, h, ih]

theorem entryCount_bumpEntry_ne (st : List AggEntry) {nm nm' : String} (w : ℚ)
    (h : nm' ≠ nm) : entryCount (bumpEntry st nm w) nm' = entryCount st nm' := by
  have h2 : ¬(nm = nm') := fun hx => h hx.symm
  induction st with
  | nil => simp [bumpEntry, entryCount, h2]
  | cons e rest ih =>
    by_cases he : e.name = nm
    · simp [bumpEntry, entryCount, he, h2]
    · by_cases he' : e.name = nm'
      · simp [bumpEntry, entryCount, he, he', h]
      · simp [bumpEntry, entryCount, he, he', ih]

theorem entryWeight_bumpEntry_ne (st : List AggEntry) {nm nm' : String} (w : ℚ)
    (h : nm' ≠ nm) : entryWeight (bumpEntry st nm w) nm' = entryWeight st nm' := by
  have h2 : ¬(nm = nm') := fun hx => h hx.symm
  induction st with
  | nil => simp [bumpEntry, entryWeight, h2]
  | cons e rest ih =>
    by_cases he : e.name = nm
    · simp [bumpEntry, entryWeight, he, h2]
    · by_cases he' : e.name = nm'
      · simp [bumpEntry, entryWeight, he, he', h]
      · simp [bumpEntry, entryWeight, he, he', ih]

theorem mem_bumpEntry {a : AggEntry} {st : List AggEntry} {nm : String} {w : ℚ}
    (h : a ∈ bumpEntry st nm w) : a ∈ st ∨ a.name = nm := by
  induction st with
  | nil =>
    simp [bumpEntry] at h
    right
    rw [h]
  | cons e rest ih =>
    by_cases he : e.name = nm
    · simp only [bumpEntry, if_pos he, List.mem_cons] at h
      rcases h with h | h
      · right; rw [h]; exact he
      · left; exact List.mem_cons_of_mem _ h
    · simp only [bumpEntry, if_neg he, List.mem_cons] at h
      rcases h with h | h
      · left; rw [h]; exact List.mem_cons_self _ _
      · rcases ih h with h' | h'
        · left; exact List.mem_cons_of_mem _ h'
        · right; exact h'

theorem seenHas_cons_ne {seen : List String} {a nm : String} (h : a ≠ nm) :
    seenHas (a :: seen) nm = seenHas seen nm := by
  simp [seenHas, h]

theorem seenHas_cons_self (seen : List String) (nm : String) :
    seenHas (nm :: seen) nm = true := by
  simp [seenHas]

theorem insertByWeight_perm (x : AggEntry) (l : List AggEntry) :
    List.Perm (insertByWeight x l) (x :: l) := by
  induction l with
  | nil => exact List.Perm.refl _
  | cons y ys ih =>
    by_cases h : x.weight < y.weight
    · simp only [insertByWeight, if_pos h]
      exact (ih.cons y).trans (List.Perm.swap x y ys)
    · simp only [insertByWeight, if_neg h]
      exact List.Perm.refl _

theorem sortByWeightDesc_perm (l : List AggEntry) :
    List.Perm (sortByWeightDesc l) l := by
  induction l with
  | nil => exact List.Perm.refl _
  | cons x xs ih =>
    exact (insertByWeight_perm x (sortByWeightDesc xs)).trans (ih.cons x)

theorem mem_sortByWeightDesc {a : AggEntry} {l : List AggEntry} :
    a ∈ sortByWeightDesc l ↔ a ∈ l :=
  (sortByWeightDesc_perm l).mem_iff

theorem insertByWeight_pairwise {x : AggEntry} {l : List AggEntry}
    (h : l.Pairwise (fun a b => b.weight ≤ a.weight)) :
    (insertByWeight x l).Pairwise (fun a b => b.weight ≤ a.weight) := by
  induction l with
  | nil => simp [insertByWeight]
  | cons y ys ih =>
    rcases List.pairwise_cons.mp h with ⟨h1, h2⟩
    by_cases hw : x.weight < y.weight
    · simp only [insertByWeight, if_pos hw]
      refine List.pairwise_cons.mpr ⟨?_, ih h2⟩
      intro b hb
      rcases List.mem_cons.mp ((insertByWeight_perm x ys).mem_iff.mp hb) with hb' | hb'
      · rw [hb']; exact le_of_lt hw
      · exact h1 b hb'
    · simp only [insertByWeight, if_neg hw]
      refine List.pairwise_cons.mpr ⟨?_, h⟩
      intro b hb
      rcases List.mem_cons.mp hb with hb' | hb'
      · rw [hb']; exact le_of_not_lt hw
      · exact le_trans (h1 b hb') (le_of_not_lt hw)

theorem sortByWeightDesc_pairwise (l : List AggEntry) :
    (sortByWeightDesc l).Pairwise (fun a b => b.weight ≤ a.weight) := by
  induction l with
  | nil => simp [sortByWeightDesc]
  | cons x xs ih => exact insertByWeight_pairwise ih

theorem insertByWeight_filter (x : AggEntry) (l : List AggEntry) (w : ℚ) :
    (insertByWeight x l).filter (fun e => e.weight == w) =
      if x.weight = w then x :: l.filter (fun e => e.weight == w)
      else l.filter (fun e => e.weight == w) := by
  induction l with
  | nil =>
    by_cases hx : x.weight = w <;> simp [insertByWeight, List.filter_cons, hx]
  | cons y ys ih =>
    by_cases hw : x.weight < y.weight
    · simp only [insertByWeight, if_pos hw]
      by_cases hx : x.weight = w
      · have hy : ¬(y.weight = w) := by
          rw [← hx]; exact fun hc => absurd hw (by rw [hc]; exact lt_irrefl _)
        simp only [List.filter_cons, ih, if_pos hx]
        simp [hy]
      · simp only [List.filter_cons, ih, if_neg hx]
    · simp only [insertByWeight, if_neg hw]
      by_cases hx : x.weight = w <;> simp [List.filter_cons, hx]

theorem sortByWeightDesc_filter (l : List AggEntry) (w : ℚ) :
    (sortByWeightDesc l).filter (fun e => e.weight == w) =
      l.filter (fun e => e.weight == w) := by
  induction l with
  | nil => rfl
  | cons x xs ih =>
    by_cases hx : x.weight = w
    · simp [sortByWeightDesc, insertByWeight_filter, hx, ih, List.filter_cons]
    · simp [sortByWeightDesc, insertByWeight_filter, hx, ih, List.filter_cons]

theorem foldl_opt_append {α β : Type} (g : α → Option β) (l : List α) (acc : List β) :
    l.foldl (fun a e => appendOpt a (g e)) acc = acc ++ l.filterMap g := by
  induction l generalizing acc with
  | nil => simp
  | cons e es ih =>
    rw [List.foldl_cons, List.filterMap_cons]
    cases hg : g e with
    | none =>
      rw [show appendOpt acc none = acc from rfl, ih acc]
    | some b =>
      rw [show appendOpt acc (some b) = acc ++ [b] from rfl, ih (acc ++ [b]),
          List.append_assoc]
      rfl

theorem hotFold_preserved (w : ℚ) (nm : String) (frames : List Frame) :
    ∀ st : List AggEntry × List (String × String) × List String,
      seenHas st.2.2 nm = true →
      entryCount (frames.foldl (hotFrameStep none false w) st).1 nm = entryCount st.1 nm ∧
      entryWeight (frames.foldl (hotFrameStep none false w) st).1 nm = entryWeight st.1 nm := by
  induction frames with
  | nil => intro st _; exact ⟨rfl, rfl⟩
  | cons f fs ih =>
    intro st h
    rw [List.foldl_cons]
    by_cases h0 : strStarts f.name "0x" = true
    · have hst : hotFrameStep none false w st f = st := by
        simp [hotFrameStep, h0]
      rw [hst]; exact ih st h
    · by_cases hseen : seenHas st.2.2 f.name = true
      · have hst : hotFrameStep none false w st f = st := by
          simp [hotFrameStep, h0, hseen, optTruthy]
        rw [hst]; exact ih st h
      · have hne : f.name ≠ nm := fun he => hseen (by rw [he]; exact h)
        have hst : hotFrameStep none false w st f =
            (bumpEntry st.1 f.name w,
             (match f.binary with
              | some b => if b ≠ "" then alistPut st.2.1 f.name b else st.2.1
              | none => st.2.1),
             f.name :: st.2.2) := by
          simp [hotFrameStep, h0, hseen, optTruthy]
        rw [hst]
        have hseen' : seenHas (f.name :: st.2.2) nm = true := by
          rw [seenHas_cons_ne hne]; exact h
        obtain ⟨ihc, ihw⟩ := ih (bumpEntry st.1 f.name w,
            (match f.binary with
             | some b => if b ≠ "" then alistPut st.2.1 f.name b else st.2.1
             | none => st.2.1),
            f.name :: st.2.2) hseen'
        exact ⟨by rw [ihc]; exact entryCount_bumpEntry_ne st.1 w hne.symm,
               by rw [ihw]; exact entryWeight_bumpEntry_ne st.1 w hne.symm⟩

theorem hotFold_bump (w : ℚ) {nm : String} (h0 : strStarts nm "0x" = false)
    (frames : List Frame) :
    ∀ st : List AggEntry × List (String × String) × List String,
      seenHas st.2.2 nm = false →
      (∃ f ∈ frames, f.name = nm) →
      entryCount (frames.foldl (hotFrameStep none false w) st).1 nm =
        entryCount st.1 nm + 1 ∧
      entryWeight (frames.foldl (hotFrameStep none false w) st).1 nm =
        entryWeight st.1 nm + w := by
  induction frames with
  | nil => intro st _ hex; exact absurd hex (by simp)
  | cons f fs ih =>
    intro st hseen hex
    rw [List.foldl_cons]
    by_cases hf : f.name = nm
    · have hf0 : strStarts f.name "0x" = false := by rw [hf]; exact h0
      have hfseen : seenHas st.2.2 f.name = false := by rw [hf]; exact hseen
      have hst : hotFrameStep none false w st f =
          (bumpEntry st.1 f.name w,
           (match f.binary with
            | some b => if b ≠ "" then alistPut st.2.1 f.name b else st.2.1
            | none => st.2.1),
           f.name :: st.2.2) := by
        simp [hotFrameStep, hf0, hfseen, optTruthy]
      rw [hst]
      have hseen' : seenHas (f.name :: st.2.2) nm = true := by
        rw [hf]; exact seenHas_cons_self _ _
      obtain ⟨ihc, ihw⟩ := hotFold_preserved w nm fs (bumpEntry st.1 f.name w,
          (match f.binary with
           | some b => if b ≠ "" then alistPut st.2.1 f.name b else st.2.1
           | none => st.2.1),
          f.name :: st.2.2) hseen'
      constructor
      · rw [ihc, hf, entryCount_bumpEntry_self]
      · rw [ihw, hf, entryWeight_bumpEntry_self]
    · have hex' : ∃ g ∈ fs, g.name = nm := by
        rcases hex with ⟨g, hg, hgn⟩
        rcases List.mem_cons.mp hg with hg' | hg'
        · exact absurd hgn (by rw [hg']; exact hf)
        · exact ⟨g, hg', hgn⟩
      by_cases hx0 : strStarts f.name "0x" = true
      · have hst : hotFrameStep none false w st f = st := by
          simp [hotFrameStep, hx0]
        rw [hst]; exact ih st hseen hex'
      · by_cases hfseen : seenHas st.2.2 f.name = true
        · have hst : hotFrameStep none false w st f = st := by
            simp [hotFrameStep, hx0, hfseen, optTruthy]
          rw [hst]; exact ih st hseen hex'
        · have hst : hotFrameStep none false w st f =
              (bumpEntry st.1 f.name w,
               (match f.binary with
                | some b => if b ≠ "" then alistPut st.2.1 f.name b else st.2.1
                | none => st.2.1),
               f.name :: st.2.2) := by
            simp [hotFrameStep, hx0, hfseen, optTruthy]
          rw [hst]
          have hseen' : seenHas (f.name :: st.2.2) nm = false := by
            rw [seenHas_cons_ne hf]; exact hseen
          obtain ⟨ihc, ihw⟩ := ih (bumpEntry st.1 f.name w,
              (match f.binary with
               | some b => if b ≠ "" then alistPut st.2.1 f.name b else st.2.1
               | none => st.2.1),
              f.name :: st.2.2) hseen' hex'
          constructor
          · rw [ihc]; rw [entryCount_bumpEntry_ne st.1 w (fun he => hf he.symm)]
          · rw [ihw]; rw [entryWeight_bumpEntry_ne st.1 w (fun he => hf he.symm)]

theorem mkFrame_eq_some {cache : List (String × Elem)} {fe : Elem} {f : Frame}
    (h : mkFrame cache fe = some f) :
    f = ⟨(resolveRef cache fe).getD "name" "", (resolveRef cache fe).getD "addr" "",
         frameBinary cache (resolveRef cache fe)⟩ ∧ f.name ≠ "" := by
  unfold mkFrame at h
  split at h
  · exact absurd h (by simp)
  · case isFalse hn =>
      obtain rfl := Option.some.inj h
      exact ⟨rfl, hn⟩

theorem rowBacktrace_eq_filterMap (cache : List (String × Elem)) (row : Elem) :
    rowBacktrace cache row = (btFrameElems cache row).filterMap (mkFrame cache) := by
  unfold rowBacktrace
  rw [foldl_opt_append]
  exact List.nil_append _

theorem mem_rowBacktrace_name {cache : List (String × Elem)} {row : Elem} {f : Frame}
    (h : f ∈ rowBacktrace cache row) : f.name ≠ "" := by
  rw [rowBacktrace_eq_filterMap] at h
  rcases List.mem_filterMap.mp h with ⟨fe, _, hfe⟩
  exact (mkFrame_eq_some hfe).2

theorem findLeafFrame_eq_find? (fb : Option String) (l : List Frame) :
    findLeafFrame fb l = l.find? (qualSelf fb) := by
  induction l with
  | nil => rfl
  | cons f fs ih =>
    by_cases h0 : strStarts f.name "0x" = true
    · have hq : qualSelf fb f = false := by simp [qualSelf, h0]
      simp [findLeafFrame, h0, List.find?_cons, hq, ih]
    · by_cases hf : (optTruthy fb && !(f.binary == fb)) = true
      · have hq : qualSelf fb f = false := by
          simp only [qualSelf, hf, Bool.not_true, Bool.and_false]
        simp [findLeafFrame, h0, hf, List.find?_cons, hq, ih]
      · have hq : qualSelf fb f = true := by
          simp only [qualSelf]
          rw [Bool.not_eq_true] at h0 hf
          rw [h0, hf]
          rfl
        simp [findLeafFrame, h0, hf, List.find?_cons, hq]

theorem findLeafFrame_not0x {fb : Option String} {l : List Frame} {f : Frame}
    (h : findLeafFrame fb l = some f) : strStarts f.name "0x" = false := by
  induction l with
  | nil => exact absurd h (by simp [findLeafFrame])
  | cons g gs ih =>
    by_cases h0 : strStarts g.name "0x" = true
    · rw [findLeafFrame, if_pos h0] at h; exact ih h
    · by_cases hf : (optTruthy fb && !(g.binary == fb)) = true
      · rw [findLeafFrame, if_neg h0, if_pos hf] at h; exact ih h
      · rw [findLeafFrame, if_neg h0, if_neg hf] at h
        obtain rfl := Option.some.inj h
        exact Bool.not_eq_true _ ▸ h0

theorem hotStep_mem {fb : Option String} {ex : Bool} {w : ℚ}
    {st : List AggEntry × List (String × String) × List String} {f : Frame}
    {e : AggEntry} (h : e ∈ (hotFrameStep fb ex w st f).1) :
    e ∈ st.1 ∨ (e.name = f.name ∧ strStarts f.name "0x" = false) := by
  unfold hotFrameStep at h
  by_cases h0 : strStarts f.name "0x" = true
  · rw [if_pos h0] at h; exact Or.inl h
  · rw [if_neg h0] at h
    split at h
    · exact Or.inl h
    · split at h
      · exact Or.inl h
      · split at h
        · exact Or.inl h
        · rcases mem_bumpEntry h with h' | h'
          · exact Or.inl h'
          · exact Or.inr ⟨h', Bool.not_eq_true _ ▸ h0⟩

theorem hotFoldFrames_0x {fb : Option String} {ex : Bool} {w : ℚ} (frames : List Frame) :
    ∀ st : List AggEntry × List (String × String) × List String,
      (∀ e ∈ st.1, strStarts e.name "0x" = false) →
      ∀ e ∈ (frames.foldl (hotFrameStep fb ex w) st).1, strStarts e.name "0x" = false := by
  induction frames with
  | nil => intro st hst; exact hst
  | cons f fs ih =>
    intro st hst
    rw [List.foldl_cons]
    apply ih
    intro e he
    rcases hotStep_mem he with h' | ⟨hn, h0⟩
    · exact hst e h'
    · rw [hn]; exact h0

theorem hotAggregate_0x (fb : Option String) (ex : Bool) (samples : List Sample) :
    ∀ e ∈ (hotAggregate fb ex samples).1, strStarts e.name "0x" = false := by
  unfold hotAggregate
  have main : ∀ (ss : List Sample) (st : List AggEntry × List (String × String)),
      (∀ e ∈ st.1, strStarts e.name "0x" = false) →
      ∀ e ∈ (ss.foldl (hotProcessSample fb ex) st).1, strStarts e.name "0x" = false := by
    intro ss
    induction ss with
    | nil => intro st hst; exact hst
    | cons s rest ih =>
      intro st hst
      rw [List.foldl_cons]
      apply ih
      intro e he
      exact hotFoldFrames_0x s.backtrace (st.1, st.2, []) hst e he
  exact main samples ([], []) (by intro e he; exact absurd he (List.not_mem_nil e))

theorem selfAggregate_0x (fb : Option String) (samples : List Sample) :
    ∀ e ∈ (selfAggregate fb samples).1, strStarts e.name "0x" = false := by
  unfold selfAggregate
  have main : ∀ (ss : List Sample) (st : List AggEntry × List (String × String)),
      (∀ e ∈ st.1, strStarts e.name "0x" = false) →
      ∀ e ∈ (ss.foldl (selfProcessSample fb) st).1, strStarts e.name "0x" = false := by
    intro ss
    induction ss with
    | nil => intro st hst; exact hst
    | cons s rest ih =>
      intro st hst
      rw [List.foldl_cons]
      apply ih
      intro e he
      unfold selfProcessSample at he
      cases hleaf : findLeafFrame fb s.backtrace with
      | none => rw [hleaf] at he; exact hst e he
      | some f =>
        rw [hleaf] at he
        rcases mem_bumpEntry he with h' | h'
        · exact hst e h'
        · rw [h']; exact findLeafFrame_not0x hleaf
  exact main samples ([], []) (by intro e he; exact absurd he (List.not_mem_nil e))

theorem appStep_mem {ab : String} {w : ℚ} {st : List AggEntry × List String} {f : Frame}
    {e : AggEntry} (h : e ∈ (appFrameStep ab w st f).1) :
    e ∈ st.1 ∨ (e.name = f.name ∧ strStarts f.name "0x" = false) := by
  unfold appFrameStep at h
  by_cases h0 : strStarts f.name "0x" = true
  · rw [if_pos h0] at h; exact Or.inl h
  · rw [if_neg h0] at h
    split at h
    · exact Or.inl h
    · split at h
      · exact Or.inl h
      · rcases mem_bumpEntry h with h' | h'
        · exact Or.inl h'
        · exact Or.inr ⟨h', Bool.not_eq_true _ ▸ h0⟩

theorem appAggregate_0x (ab : String) (samples : List Sample) :
    ∀ e ∈ appAggregate ab samples, strStarts e.name "0x" = false := by
  unfold appAggregate
  have inner : ∀ (frames : List Frame) (w : ℚ) (st : List AggEntry × List String),
      (∀ e ∈ st.1, strStarts e.name "0x" = false) →
      ∀ e ∈ (frames.foldl (appFrameStep ab w) st).1, strStarts e.name "0x" = false := by
    intro frames w
    induction frames with
    | nil => intro st hst; exact hst
    | cons f fs ih =>
      intro st hst
      rw [List.foldl_cons]
      apply ih
      intro e he
      rcases appStep_mem he with h' | ⟨hn, h0⟩
      · exact hst e h'
      · rw [hn]; exact h0
  have main : ∀ (ss : List Sample) (acc : List AggEntry),
      (∀ e ∈ acc, strStarts e.name "0x" = false) →
      ∀ e ∈ ss.foldl
        (fun acc s => (s.backtrace.foldl (appFrameStep ab s.weight_ms) (acc, [])).1) acc,
        strStarts e.name "0x" = false := by
    intro ss
    induction ss with
    | nil => intro acc hacc; exact hacc
    | cons s rest ih =>
      intro acc hacc
      rw [List.foldl_cons]
      apply ih
      intro e he
      exact inner s.backtrace s.weight_ms (acc, []) hacc e he
  exact main samples [] (by intro e he; exact absurd he (List.not_mem_nil e))

theorem strStarts_0x_ne_empty {s : String} (h : strStarts s "0x" = true) : s ≠ "" := by
  intro he
  rw [he] at h
  exact absurd h (by decide)

theorem withinList_nil_needle (l : List Char) : withinList [] l = true := by
  cases l with
  | nil => rfl
  | cons c cs => simp [withinList, leadsList]

theorem substrCI_empty_needle (b : String) : substrCI "" b = true := by
  unfold substrCI
  exact withinList_nil_needle _

theorem cstackSkip_none (f : Frame) : cstackSkip none f = false := by
  cases f with
  | mk n a b => cases b <;> rfl

theorem collapseFrames_none (l : List Frame) :
    collapseFrames none l =
      (l.filter (fun f => !strStarts f.name "0x")).map (fun f => sanitizeName f.name) := by
  induction l with
  | nil => rfl
  | cons f fs ih =>
    by_cases h0 : strStarts f.name "0x" = true
    · simp [collapseFrames, h0, cstackSkip_none, List.filter_cons, ih]
    · simp [collapseFrames, h0, cstackSkip_none, List.filter_cons, ih]

theorem collapseFrames_mem {fbs : String} {nm : String} (l : List Frame)
    (h : nm ∈ collapseFrames (some fbs) l) :
    ∃ f ∈ l, sanitizeName f.name = nm ∧ strStarts f.name "0x" = false ∧
      (binTruthy f.binary = true → optBinMatches fbs f.binary = true) := by
  induction l with
  | nil => exact absurd h (by simp [collapseFrames])
  | cons f fs ih =>
    by_cases h0 : strStarts f.name "0x" = true
    · rw [collapseFrames, if_pos h0] at h
      rcases ih h with ⟨g, hg, hrest⟩
      exact ⟨g, List.mem_cons_of_mem _ hg, hrest⟩
    · by_cases hskip : cstackSkip (some fbs) f = true
      · rw [collapseFrames, if_neg h0, if_pos hskip] at h
        rcases ih h with ⟨g, hg, hrest⟩
        exact ⟨g, List.mem_cons_of_mem _ hg, hrest⟩
      · rw [collapseFrames, if_neg h0, if_neg hskip] at h
        rcases List.mem_cons.mp h with h' | h'
        · refine ⟨f, List.mem_cons_self _ _, h'.symm, Bool.not_eq_true _ ▸ h0, ?_⟩
          intro htruthy
          cases hb : f.binary with
          | none => rw [hb] at htruthy; exact absurd htruthy (by simp [binTruthy])
          | some b =>
            rw [hb] at htruthy
            have hbne : b ≠ "" := by
              intro hbe
              rw [hbe] at htruthy
              exact absurd htruthy (by simp [binTruthy])
            have hcs : cstackSkip (some fbs) f =
                (fbs ≠ "" && b ≠ "" && !substrCI fbs b) := by
              unfold cstackSkip
              rw [hb]
            rw [Bool.not_eq_true, hcs] at hskip
            by_cases hfe : fbs = ""
            · rw [hfe]
              simp only [optBinMatches]
              exact substrCI_empty_needle b
            · simp only [optBinMatches]
              by_cases hsub : substrCI fbs b = true
              · exact hsub
              · exfalso
                rw [Bool.not_eq_true] at hsub
                rw [hsub] at hskip
                simp [hfe, hbne] at hskip
        · rcases ih h' with ⟨g, hg, hrest⟩
          exact ⟨g, List.mem_cons_of_mem _ hg, hrest⟩

/-! ### Claim theorems -/

/-- C3: for every node whose `ref` names an identifier present in the
index, resolution substitutes the indexed node (so every resolved
attribute equals the indexed node's); a node whose `ref` is unknown,
and a node with no `ref`, resolve to themselves unchanged. -/
theorem claim_C3_reference_resolution (root : Elem) :
    (∀ e r t, e.getAttr "ref" = some r → r ≠ "" →
        alistGet (buildIdCache root) r = some t →
        resolveRef (buildIdCache root) e = t ∧
        ∀ k, (resolveRef (buildIdCache root) e).getAttr k = t.getAttr k) ∧
    (∀ e r, e.getAttr "ref" = some r → alistGet (buildIdCache root) r = none →
        resolveRef (buildIdCache root) e = e) ∧
    (∀ e, e.getAttr "ref" = none → resolveRef (buildIdCache root) e = e) := by
  refine ⟨?_, ?_, ?_⟩
  · intro e r t h1 h2 h3
    have ht : resolveRef (buildIdCache root) e = t := by
      simp only [resolveRef, h1, h3, if_neg h2]
    exact ⟨ht, fun k => by rw [ht]⟩
  · intro e r h1 h3
    by_cases h2 : r = ""
    · simp only [resolveRef, h1, if_pos h2]
    · simp only [resolveRef, h1, h3, if_neg h2]
  · intro e h1
    simp only [resolveRef, h1]

/-- Witness for C3 on a concrete document: a reference to `n1` is
substituted by the indexed node, a reference to `missing` resolves to
the original node. -/
theorem claim_C3_reference_resolution_witness :
    resolveRef (buildIdCache c3root) c3refNode = c3target ∧
    resolveRef (buildIdCache c3root) (Elem.mk "node" [("ref", "missing")] []) =
      Elem.mk "node" [("ref", "missing")] [] :=
  ⟨((claim_C3_reference_resolution c3root).1 c3refNode "n1" c3target rfl
      (by decide) rfl).1,
   (claim_C3_reference_resolution c3root).2.1 (Elem.mk "node" [("ref", "missing")] [])
     "missing" rfl rfl⟩

/-- C10: resolution is a single indexed lookup — when a node's
reference resolves to a target that itself carries a reference to a
further indexed node, one application returns the target as-is with
its own reference attribute left in place, and only a second
application would reach the further node. -/
theorem claim_C10_one_hop (cache : List (String × Elem)) (e t u : Elem) (r r2 : String)
    (h1 : e.getAttr "ref" = some r) (h2 : r ≠ "") (h3 : alistGet cache r = some t)
    (h4 : t.getAttr "ref" = some r2) (h5 : r2 ≠ "") (h6 : alistGet cache r2 = some u) :
    resolveRef cache e = t ∧ (resolveRef cache e).getAttr "ref" = some r2 ∧
      resolveRef cache (resolveRef cache e) = u := by
  have ht : resolveRef cache e = t := by simp only [resolveRef, h1, h3, if_neg h2]
  refine ⟨ht, by rw [ht]; exact h4, ?_⟩
  rw [ht]
  simp only [resolveRef, h4, h6, if_neg h5]

/-- Witness for C10 on a concrete two-hop chain `c → b → a`. -/
theorem claim_C10_one_hop_witness :
    resolveRef (buildIdCache c10root) c10chainNode = c10mid ∧
    (resolveRef (buildIdCache c10root) c10chainNode).getAttr "ref" = some "a" ∧
    resolveRef (buildIdCache c10root)
        (resolveRef (buildIdCache c10root) c10chainNode) = c10base :=
  claim_C10_one_hop (buildIdCache c10root) c10chainNode c10mid c10base "b" "a"
    rfl (by decide) rfl rfl (by decide) rfl

/-- C5: a constructed sample's backtrace is the reconstructed list,
it is non-empty, every frame in it has a non-empty name (unnamed
frames were dropped), and a row whose reconstructed backtrace is empty
yields no sample. -/
theorem claim_C5_nonempty_backtrace (cache : List (String × Elem)) (row : Elem) :
    (∀ s, parseRow cache row = some s →
        s.backtrace = rowBacktrace cache row ∧ s.backtrace ≠ [] ∧
        ∀ f ∈ s.backtrace, f.name ≠ "") ∧
    (rowBacktrace cache row = [] → parseRow cache row = none) := by
  constructor
  · intro s hs
    simp only [parseRow] at hs
    split at hs
    · exact absurd hs (by simp)
    · case isFalse hbt =>
        obtain rfl := Option.some.inj hs
        exact ⟨rfl, hbt, fun f hf => mem_rowBacktrace_name hf⟩
  · intro hbt
    simp only [parseRow, if_pos hbt]

/-- Witness for C5 on a concrete row with one named and one unnamed
frame. -/
theorem claim_C5_nonempty_backtrace_witness :
    (Sample.mk "" "" "" 1 [⟨"f1", "", none⟩]).backtrace = rowBacktrace [] c5row ∧
    (Sample.mk "" "" "" 1 [⟨"f1", "", none⟩]).backtrace ≠ [] ∧
    ∀ f ∈ (Sample.mk "" "" "" 1 [⟨"f1", "", none⟩]).backtrace, f.name ≠ "" :=
  (claim_C5_nonempty_backtrace [] c5row).1 _ rfl

/-- C4: the formatted weight `"1,234.5 ms"` parses to `1234.5`; when
the cleaned weight string fails to parse, the weight falls back to
`1.0`; a constructed sample always carries the row's weight; and
whether a sample is constructed depends only on the reconstructed
backtrace, never on the weight parse. -/
theorem claim_C4_weight_fallback :
    parseWeightFmt "1,234.5 ms" = 2469 / 2 ∧
    (∀ fmt, parsePyFloat (cleanWeight fmt) = none → parseWeightFmt fmt = 1) ∧
    (∀ cache row s, parseRow cache row = some s → s.weight_ms = rowWeight cache row) ∧
    (∀ cache row, (parseRow cache row).isSome = !(rowBacktrace cache row).isEmpty) := by
  refine ⟨?_, ?_, ?_, ?_⟩
  · have h : parseWeightFmt "1,234.5 ms" =
        (digitsVal ['1', '2', '3', '4'] : ℚ) +
          (digitsVal ['5'] : ℚ) / ((10 ^ ['5'].length : ℕ) : ℚ) := rfl
    have h1 : (digitsVal ['1', '2', '3', '4'] : ℕ) = 1234 := rfl
    have h2 : (digitsVal ['5'] : ℕ) = 5 := rfl
    rw [h, h1, h2]
    push_cast
    norm_num
  · intro fmt h
    unfold parseWeightFmt
    rw [h]
  · intro cache row s hs
    simp only [parseRow] at hs
    split at hs
    · exact absurd hs (by simp)
    · obtain rfl := Option.some.inj hs
      rfl
  · intro cache row
    simp only [parseRow]
    split
    · case isTrue hbt => rw [hbt]; rfl
    · case isFalse hbt =>
        have hne : (rowBacktrace cache row).isEmpty = false := by
          cases hx : rowBacktrace cache row with
          | nil => exact absurd hx hbt
          | cons a as => rfl
        rw [hne]
        rfl

/-- Witness for C4: the string `bogus` fails to parse and yields the
fallback `1.0`, and the row holding it still constructs a sample whose
weight is that fallback. -/
theorem claim_C4_weight_fallback_witness :
    parseWeightFmt "bogus" = 1 ∧
    (Sample.mk "" "" "" 1 [⟨"g", "", none⟩]).weight_ms = rowWeight [] c4row :=
  ⟨claim_C4_weight_fallback.2.1 "bogus" (by decide),
   claim_C4_weight_fallback.2.2.1 [] c4row (Sample.mk "" "" "" 1 [⟨"g", "", none⟩]) rfl⟩

/-- C1: in inclusive aggregation (no filters), a sample whose
backtrace contains a non-raw-address frame name more than once
contributes exactly one occurrence and exactly the sample's weight for
that name — the per-sample seen-set deduplicates within the sample. -/
theorem claim_C1_inclusive_dedup
    (pre : List AggEntry × List (String × String)) (s : Sample) (nm : String)
    (h0 : strStarts nm "0x" = false)
    (h2 : 2 ≤ s.backtrace.countP (fun f => f.name == nm)) :
    entryCount (hotProcessSample none false pre s).1 nm = entryCount pre.1 nm + 1 ∧
    entryWeight (hotProcessSample none false pre s).1 nm =
      entryWeight pre.1 nm + s.weight_ms := by
  have hex : ∃ f ∈ s.backtrace, f.name = nm := by
    have hpos : 0 < s.backtrace.countP (fun f => f.name == nm) :=
      lt_of_lt_of_le (by norm_num) h2
    rcases List.countP_pos_iff.mp hpos with ⟨f, hf, hp⟩
    exact ⟨f, hf, by simpa using hp⟩
  exact hotFold_bump s.weight_ms h0 s.backtrace (pre.1, pre.2, []) rfl hex

/-- Witness for C1: the name `dup` occurs twice in `c1sample`, yet its
contribution is one occurrence and one weight. -/
theorem claim_C1_inclusive_dedup_witness :
    entryCount (hotProcessSample none false ([], []) c1sample).1 "dup" =
      entryCount ([] : List AggEntry) "dup" + 1 ∧
    entryWeight (hotProcessSample none false ([], []) c1sample).1 "dup" =
      entryWeight ([] : List AggEntry) "dup" + c1sample.weight_ms :=
  claim_C1_inclusive_dedup ([], []) c1sample "dup" (by decide) (by decide)

/-- C2: in leaf-only aggregation a sample contributes through the
first frame that is not a raw address and passes the optional binary
filter (the `find?` characterization); when such a frame exists, it
gains one occurrence and the sample's full weight while all other
names are untouched; when none exists, the sample contributes
nothing. -/
theorem claim_C2_leaf_only (fb : Option String)
    (pre : List AggEntry × List (String × String)) (s : Sample) :
    findLeafFrame fb s.backtrace = s.backtrace.find? (qualSelf fb) ∧
    (findLeafFrame fb s.backtrace = none → selfProcessSample fb pre s = pre) ∧
    (∀ f, findLeafFrame fb s.backtrace = some f →
        entryCount (selfProcessSample fb pre s).1 f.name =
          entryCount pre.1 f.name + 1 ∧
        entryWeight (selfProcessSample fb pre s).1 f.name =
          entryWeight pre.1 f.name + s.weight_ms ∧
        ∀ nm, nm ≠ f.name →
          entryCount (selfProcessSample fb pre s).1 nm = entryCount pre.1 nm ∧
          entryWeight (selfProcessSample fb pre s).1 nm = entryWeight pre.1 nm) := by
  refine ⟨findLeafFrame_eq_find? fb s.backtrace, ?_, ?_⟩
  · intro h
    unfold selfProcessSample
    rw [h]
  · intro f h
    unfold selfProcessSample
    rw [h]
    exact ⟨entryCount_bumpEntry_self _ _ _, entryWeight_bumpEntry_self _ _ _,
           fun nm hnm => ⟨entryCount_bumpEntry_ne _ _ hnm, entryWeight_bumpEntry_ne _ _ hnm⟩⟩

/-- Witness for C2: in `c2sample` the raw-address frame is passed
over, the leaf `leafF` gains one count and the full weight, and the
non-leaf `rootF` gains nothing. -/
theorem claim_C2_leaf_only_witness :
    entryCount (selfProcessSample (some "BinA") ([], []) c2sample).1 "leafF" =
      entryCount ([] : List AggEntry) "leafF" + 1 ∧
    entryWeight (selfProcessSample (some "BinA") ([], []) c2sample).1 "leafF" =
      entryWeight ([] : List AggEntry) "leafF" + c2sample.weight_ms ∧
    entryCount (selfProcessSample (some "BinA") ([], []) c2sample).1 "rootF" =
      entryCount ([] : List AggEntry) "rootF" := by
  have h := (claim_C2_leaf_only (some "BinA") ([], []) c2sample).2.2
    ⟨"leafF", "", some "BinA"⟩ rfl
  exact ⟨h.1, h.2.1, (h.2.2 "rootF" (by decide)).1⟩

theorem getHotFrames_no0x (samples : List Sample) (topN : ℕ) (fb : Option String)
    (ex : Bool) {nm : String} (h : strStarts nm "0x" = true) :
    ∀ t ∈ getHotFrames samples topN fb ex, t.1 ≠ nm := by
  intro t ht
  simp only [getHotFrames] at ht
  rcases List.mem_map.mp ht with ⟨e, he, rfl⟩
  have he2 : e ∈ (hotAggregate fb ex samples).1 :=
    mem_sortByWeightDesc.mp (List.take_subset _ _ he)
  have h0 := hotAggregate_0x fb ex samples e he2
  intro hne
  have hne2 : e.name = nm := hne
  rw [hne2, h] at h0
  exact absurd h0 (by decide)

theorem getSelfTimeFrames_no0x (samples : List Sample) (topN : ℕ) (fb : Option String)
    {nm : String} (h : strStarts nm "0x" = true) :
    ∀ t ∈ getSelfTimeFrames samples topN fb, t.1 ≠ nm := by
  intro t ht
  simp only [getSelfTimeFrames] at ht
  rcases List.mem_map.mp ht with ⟨e, he, rfl⟩
  have he2 : e ∈ (selfAggregate fb samples).1 :=
    mem_sortByWeightDesc.mp (List.take_subset _ _ he)
  have h0 := selfAggregate_0x fb samples e he2
  intro hne
  have hne2 : e.name = nm := hne
  rw [hne2, h] at h0
  exact absurd h0 (by decide)

theorem getAppFrames_no0x (samples : List Sample) (ab : String) (topN : ℕ)
    {nm : String} (h : strStarts nm "0x" = true) :
    ∀ t ∈ getAppFrames samples ab topN, t.1 ≠ nm := by
  intro t ht
  simp only [getAppFrames] at ht
  rcases List.mem_map.mp ht with ⟨e, he, rfl⟩
  have he2 : e ∈ appAggregate ab samples :=
    mem_sortByWeightDesc.mp (List.take_subset _ _ he)
  have h0 := appAggregate_0x ab samples e he2
  intro hne
  have hne2 : e.name = nm := hne
  rw [hne2, h] at h0
  exact absurd h0 (by decide)

theorem getSwiftuiFrames_no0x (samples : List Sample) (topN : ℕ)
    {nm : String} (h : strStarts nm "0x" = true) :
    ∀ t ∈ getSwiftuiFrames samples topN, t.1 ≠ nm := by
  intro t ht
  simp only [getSwiftuiFrames] at ht
  rcases List.mem_map.mp ht with ⟨t', ht', rfl⟩
  have ht2 := List.take_subset _ _ ht'
  have ht3 : t' ∈ getHotFrames samples 100 none false := (List.mem_filter.mp ht2).1
  exact getHotFrames_no0x samples 100 none false h t' ht3

/-- C6: the reconstructed backtrace is exactly the traversal-ordered
`filterMap` of the row's frame elements (raw order preserved,
leaf-first); a frame whose resolved name starts with `0x` is still
turned into a frame (kept in the backtrace); and no aggregation —
inclusive, leaf-only, scoped, or keyword — ever reports a name that
starts with `0x`. -/
theorem claim_C6_raw_address_frames :
    (∀ cache row,
        rowBacktrace cache row = (btFrameElems cache row).filterMap (mkFrame cache)) ∧
    (∀ cache fe, strStarts ((resolveRef cache fe).getD "name" "") "0x" = true →
        mkFrame cache fe =
          some ⟨(resolveRef cache fe).getD "name" "",
                (resolveRef cache fe).getD "addr" "",
                frameBinary cache (resolveRef cache fe)⟩) ∧
    (∀ samples topN fb ex nm, strStarts nm "0x" = true →
        ∀ t ∈ getHotFrames samples topN fb ex, t.1 ≠ nm) ∧
    (∀ samples topN fb nm, strStarts nm "0x" = true →
        ∀ t ∈ getSelfTimeFrames samples topN fb, t.1 ≠ nm) ∧
    (∀ samples ab topN nm, strStarts nm "0x" = true →
        ∀ t ∈ getAppFrames samples ab topN, t.1 ≠ nm) ∧
    (∀ samples topN nm, strStarts nm "0x" = true →
        ∀ t ∈ getSwiftuiFrames samples topN, t.1 ≠ nm) := by
  refine ⟨rowBacktrace_eq_filterMap, ?_,
          fun samples topN fb ex nm h => getHotFrames_no0x samples topN fb ex h,
          fun samples topN fb nm h => getSelfTimeFrames_no0x samples topN fb h,
          fun samples ab topN nm h => getAppFrames_no0x samples ab topN h,
          fun samples topN nm h => getSwiftuiFrames_no0x samples topN h⟩
  intro cache fe h
  unfold mkFrame
  rw [if_neg (strStarts_0x_ne_empty h)]

/-- Witness for C6: the raw-address frame element is kept as a frame,
and the raw-address name never shows up in the inclusive results of a
trace containing it. -/
theorem claim_C6_raw_address_frames_witness :
    mkFrame [] c6frameElem = some ⟨"0xdead", "0xdead", none⟩ ∧
    ∀ t ∈ getHotFrames c6samples 5 none false, t.1 ≠ "0xdead" :=
  ⟨claim_C6_raw_address_frames.2.1 [] c6frameElem (by decide),
   claim_C6_raw_address_frames.2.2.1 c6samples 5 none false "0xdead" (by decide)⟩

theorem sampleLine_none (s : Sample) : sampleLine none s = specCollapsedLine s := by
  unfold sampleLine specCollapsedLine
  rw [collapseFrames_none]

/-- C7: with no filter, the Stack Normalizer emits for every sample
with a surviving frame exactly the line the spec describes — the
reversed backtrace's non-raw-address frame names, sanitized,
semicolon-joined, a space, then the truncated integer weight — and
emits nothing for a sample with no surviving frame; on the concrete
sample `[leaf, mid, root]` with weight `12.9` the line is
`root;mid;leaf 12`. -/
theorem claim_C7_collapsed_lines :
    (∀ samples, generateCollapsedStacks none samples =
        String.intercalate "\n" (samples.filterMap specCollapsedLine)) ∧
    (Rat.divInt 129 10 : ℚ) = 129 / 10 ∧
    generateCollapsedStacks none
        [⟨"", "", "", Rat.divInt 129 10,
          [⟨"leaf", "", none⟩, ⟨"mid", "", none⟩, ⟨"root", "", none⟩]⟩] =
      "root;mid;leaf 12" := by
  refine ⟨?_, by norm_num [Rat.divInt_eq_div], by decide⟩
  intro samples
  unfold generateCollapsedStacks
  rw [show sampleLine none = specCollapsedLine from funext sampleLine_none]

/-- C8: the stable weight-descending sort underlying every
aggregation result is sorted, is a permutation of the accumulated
entries, and never reorders equal-weight entries (the filter at any
weight is unchanged); the inclusive and leaf-only results are
weight-descending and truncated to the caller's top-N. -/
theorem claim_C8_sorted_stable :
    (∀ l : List AggEntry,
        (sortByWeightDesc l).Pairwise (fun a b => b.weight ≤ a.weight)) ∧
    (∀ l : List AggEntry, List.Perm (sortByWeightDesc l) l) ∧
    (∀ (l : List AggEntry) (w : ℚ),
        (sortByWeightDesc l).filter (fun e => e.weight == w) =
          l.filter (fun e => e.weight == w)) ∧
    (∀ samples topN fb ex,
        (getHotFrames samples topN fb ex).length ≤ topN ∧
        (getHotFrames samples topN fb ex).Pairwise
          (fun a b => b.2.2.1 ≤ a.2.2.1)) ∧
    (∀ samples topN fb,
        (getSelfTimeFrames samples topN fb).length ≤ topN ∧
        (getSelfTimeFrames samples topN fb).Pairwise
          (fun a b => b.2.2.1 ≤ a.2.2.1)) := by
  refine ⟨sortByWeightDesc_pairwise, sortByWeightDesc_perm, sortByWeightDesc_filter,
          ?_, ?_⟩
  · intro samples topN fb ex
    constructor
    · simp only [getHotFrames, List.length_map]
      exact List.length_take_le _ _
    · simp only [getHotFrames]
      have hp : ((sortByWeightDesc (hotAggregate fb ex samples).1).take topN).Pairwise
          (fun a b => b.weight ≤ a.weight) :=
        (sortByWeightDesc_pairwise _).sublist (List.take_sublist _ _)
      exact hp.map _ (fun a b hab => hab)
  · intro samples topN fb
    constructor
    · simp only [getSelfTimeFrames, List.length_map]
      exact List.length_take_le _ _
    · simp only [getSelfTimeFrames]
      have hp : ((sortByWeightDesc (selfAggregate fb samples).1).take topN).Pairwise
          (fun a b => b.weight ≤ a.weight) :=
        (sortByWeightDesc_pairwise _).sublist (List.take_sublist _ _)
      exact hp.map _ (fun a b hab => hab)

/-- C9 counterexample: under the binary filter `app`, the sample whose
single frame has no recorded binary still emits the line `noBin 1`,
although no frame of it has a binary that case-insensitively contains
`app` — the code keeps (rather than skips) frames with no recorded
binary. -/
theorem claim_C9_counterexample :
    generateCollapsedStacks (some "app") [c9sample] = "noBin 1" ∧
    "noBin" ∈ collapseFrames (some "app") c9sample.backtrace.reverse ∧
    ∀ f ∈ c9sample.backtrace, optBinMatches "app" f.binary = false := by
  refine ⟨by decide, by decide, by decide⟩

/-- C9 (amended): when a binary filter is supplied, every frame name
appearing in an emitted line comes from a non-raw-address frame that
either has no truthy recorded binary or whose binary case-insensitively
contains the filter string. -/
theorem claim_C9_binary_filter (fbs : String) (s : Sample) (nm : String)
    (h : nm ∈ collapseFrames (some fbs) s.backtrace.reverse) :
    ∃ f ∈ s.backtrace, sanitizeName f.name = nm ∧ strStarts f.name "0x" = false ∧
      (binTruthy f.binary = true → optBinMatches fbs f.binary = true) := by
  rcases collapseFrames_mem _ h with ⟨f, hf, hrest⟩
  exact ⟨f, List.mem_reverse.mp hf, hrest⟩

/-- Witness for the amended C9 on a concrete filtered sample. -/
theorem claim_C9_binary_filter_witness :
    ∃ f ∈ c9witSample.backtrace, sanitizeName f.name = "appFn" ∧
      strStarts f.name "0x" = false ∧
      (binTruthy f.binary = true → optBinMatches "app" f.binary = true) :=
  claim_C9_binary_filter "app" c9witSample "appFn" (by decide)
